import Mathlib

/-!
Verification of the `neon` minibatch data-loading pipeline
(`src/loader/src/loader.hpp`, exercised by `src/loader/test/thread_test.cpp`).

The development shallowly embeds the pieces of the loader that the checked
properties talk about:

* the per-worker partition arithmetic of `DecodeThreadPool::DecodeThreadPool`
  and `DecodeThreadPool::run` (`itemsPerThread`, `startInd`, `itemCount`);
* the worker-count computation of `Loader::start`
  (`loaderItemsPerThread`, `loaderThreadCount`);
* the non-`READ_CONTENTS` target path of `DecodeThreadPool::transform`
  (`transformTargetBuf`, `transformMeta`);
* a functional model of one pipeline round trip (decode fan-out over the
  partition, FIFO pools) used for the end-to-end FIFO-fidelity property
  (`decodeBatch`, `pipelineRun`, `singleDecode`);
* the `ReadThread::produce` loop (`readProduce`, `readRun`);
* the allocation sequence of `Loader::start` and `Loader::reset`
  (`loaderStart`, `loaderReset`);
* two small-step transition systems: one for the manager/worker barrier of
  `DecodeThreadPool::produce` / `DecodeThreadPool::work` (`BStep`), and one
  for the decode-pool / device double-buffer / `Loader::next` interplay
  (`PStep`).

Machine integers in the C++ source are modelled as `Nat` (all the quantities
involved are non-negative and far from overflow in every claim considered);
`int` result codes are modelled as `Int` where `-1` matters.
-/

namespace NeonLoader

/-! ## Ceiling-division arithmetic

`(B - 1) / n + 1` is the C++ idiom for `⌈B / n⌉` used throughout the loader.
The Galois-style equivalence below is the workhorse for every fact about it. -/

/-- `⌈B/n⌉` as computed by the C++ code: `(B - 1) / n + 1` (for `B, n ≥ 1`). -/
def ceilDiv (B n : Nat) : Nat := (B - 1) / n + 1

theorem ceilDiv_le_iff (B n k : Nat) (hB : 1 ≤ B) (hn : 1 ≤ n) :
    ceilDiv B n ≤ k ↔ B ≤ n * k := by
  unfold ceilDiv
  have hdiv : (B - 1) / n < k ↔ B - 1 < k * n := Nat.div_lt_iff_lt_mul hn
  rw [Nat.mul_comm k n] at hdiv
  constructor
  · intro h
    have := hdiv.mp (by omega)
    omega
  · intro h
    have := hdiv.mpr (by omega)
    omega

theorem one_le_ceilDiv (B n : Nat) : 1 ≤ ceilDiv B n := Nat.le_add_left 1 _

theorem le_mul_ceilDiv (B n : Nat) (hB : 1 ≤ B) (hn : 1 ≤ n) : B ≤ n * ceilDiv B n :=
  (ceilDiv_le_iff B n (ceilDiv B n) hB hn).mp (Nat.le_refl _)

theorem mul_pred_ceilDiv_lt (B n : Nat) (hB : 1 ≤ B) (hn : 1 ≤ n) :
    n * (ceilDiv B n - 1) < B := by
  by_contra h
  have h' : B ≤ n * (ceilDiv B n - 1) := by omega
  have := (ceilDiv_le_iff B n (ceilDiv B n - 1) hB hn).mpr h'
  have := one_le_ceilDiv B n
  omega

/-! ## The decode partition

`DecodeThreadPool::DecodeThreadPool` computes
`_itemsPerThread = (batchSize - 1) / count + 1` and asserts
`_itemsPerThread * count >= _batchSize` and
`_itemsPerThread * (count - 1) < _batchSize`.
`DecodeThreadPool::run(id)` computes
`_startInds[id] = id * _itemsPerThread`, `itemCount = _itemsPerThread`
except for the last worker which gets `_batchSize - id * _itemsPerThread`,
and the worker loops over `i ∈ [_startInds[id], _startInds[id] + itemCount)`. -/

/-- `_itemsPerThread` as computed by the `DecodeThreadPool` constructor. -/
def itemsPerThread (B N : Nat) : Nat := (B - 1) / N + 1

/-- `_startInds[id]` as computed by `DecodeThreadPool::run`. -/
def startInd (B N id : Nat) : Nat := id * itemsPerThread B N

/-- `itemCount` of worker `id` as computed by `DecodeThreadPool::run`: the last
worker gets `_batchSize - id * _itemsPerThread`, everyone else
`_itemsPerThread`.  (The C++ subtraction is on `int`; the decode loop runs
`max(0, itemCount)` times, which is what the `Nat` truncated subtraction
yields.) -/
def itemCount (B N id : Nat) : Nat :=
  if id = N - 1 then B - startInd B N id else itemsPerThread B N

/-- The list of item indices decoded by worker `id`
(the loop `for (i = start; i < end; i++)` of `DecodeThreadPool::work`). -/
def workerItems (B N id : Nat) : List Nat :=
  List.range' (startInd B N id) (itemCount B N id)

/-- The worker range claimed by the spec:
`[id·itemsPerThread, min((id+1)·itemsPerThread, B))`. -/
def specRange (B N id : Nat) : List Nat :=
  List.range' (startInd B N id) (min ((id + 1) * itemsPerThread B N) B - startInd B N id)

/-- Concatenation of the per-worker lists for workers `0, …, n-1`, in worker
order (the workers write into disjoint consecutive slices of the output
buffers, so the decoded minibatch is exactly this concatenation). -/
def catWorkers {α : Type} (g : Nat → List α) : Nat → List α
  | 0 => []
  | n + 1 => catWorkers g n ++ g n

theorem itemsPerThread_eq_ceilDiv (B N : Nat) : itemsPerThread B N = ceilDiv B N := rfl

/-- Concatenating the first `k ≤ N - 1` (non-last) worker ranges gives the
contiguous range `[0, k * itemsPerThread)`. -/
theorem catWorkers_workerItems_prefix (B N : Nat) (k : Nat) (hk : k ≤ N - 1) :
    catWorkers (workerItems B N) k = List.range' 0 (k * itemsPerThread B N) := by
  induction k with
  | zero => simp [catWorkers]
  | succ k ih =>
    have hk' : k ≤ N - 1 := Nat.le_of_succ_le hk
    have hkN : k ≠ N - 1 := by omega
    rw [catWorkers, ih hk', workerItems, itemCount, if_neg hkN, startInd]
    have := List.range'_append 0 (k * itemsPerThread B N) (itemsPerThread B N) 1
    simp only [Nat.one_mul, Nat.zero_add] at this
    rw [Nat.mul_comm k (itemsPerThread B N), Nat.mul_comm (k+1) (itemsPerThread B N)] at *
    rw [this]
    ring_nf

/-- Under the constructor's asserted precondition
`(N-1) * itemsPerThread ≤ B`, the worker ranges concatenate, in worker order,
to exactly `[0, B)`: every item of the minibatch is decoded exactly once. -/
theorem catWorkers_workerItems (B N : Nat) (hN : 1 ≤ N)
    (h : (N - 1) * itemsPerThread B N ≤ B) :
    catWorkers (workerItems B N) N = List.range B := by
  obtain ⟨M, rfl⟩ : ∃ M, N = M + 1 := ⟨N - 1, by omega⟩
  rw [catWorkers, catWorkers_workerItems_prefix B (M+1) M (by omega)]
  rw [workerItems, itemCount, if_pos (by omega), startInd]
  simp only [Nat.add_sub_cancel] at h
  have happ := List.range'_append 0 (M * itemsPerThread B (M+1))
    (B - M * itemsPerThread B (M+1)) 1
  simp only [Nat.one_mul, Nat.zero_add] at happ
  rw [happ, List.range_eq_range']
  congr 1
  omega

/-- Under the constructor's asserted precondition, every worker's computed
range coincides with the range claimed by the spec
(`[id·itemsPerThread, min((id+1)·itemsPerThread, B))`). -/
theorem workerItems_eq_specRange (B N : Nat) (hB : 1 ≤ B) (hN : 1 ≤ N)
    (h : (N - 1) * itemsPerThread B N ≤ B) (id : Nat) (hid : id < N) :
    workerItems B N id = specRange B N id := by
  rw [workerItems, specRange, itemCount]
  by_cases hlast : id = N - 1
  · subst hlast
    rw [if_pos rfl]
    congr 1
    have hge : B ≤ (N - 1 + 1) * itemsPerThread B N := by
      have hN' : N - 1 + 1 = N := by omega
      rw [hN', itemsPerThread_eq_ceilDiv]
      exact le_mul_ceilDiv B N hB hN
    rw [startInd]
    omega
  · rw [if_neg hlast]
    congr 1
    have hle : (id + 1) * itemsPerThread B N ≤ B := by
      calc (id + 1) * itemsPerThread B N ≤ (N - 1) * itemsPerThread B N :=
            Nat.mul_le_mul_right _ (by omega)
        _ ≤ B := h
    rw [startInd]
    have : min ((id + 1) * itemsPerThread B N) B = (id + 1) * itemsPerThread B N :=
      Nat.min_eq_left hle
    rw [this]
    have := one_le_ceilDiv B N
    rw [itemsPerThread_eq_ceilDiv] at *
    have hmul : (id + 1) * ceilDiv B N = id * ceilDiv B N + ceilDiv B N := by ring
    omega

/-- Worker ranges are pairwise disjoint (in fact strictly ordered): an item of
an earlier worker's range is strictly below every item of a later worker's
range. -/
theorem workerItems_disjoint (B N : Nat) (hB : 1 ≤ B) (hN : 1 ≤ N)
    (h : (N - 1) * itemsPerThread B N ≤ B) (i j : Nat) (hij : i < j) (hj : j < N)
    (x : Nat) (hx : x ∈ workerItems B N i) (y : Nat) (hy : y ∈ workerItems B N j) :
    x < y := by
  have hxm := List.mem_range'_1.mp hx
  have hym := List.mem_range'_1.mp hy
  have hcnt : startInd B N i + itemCount B N i ≤ startInd B N j := by
    rw [startInd, startInd, itemCount]
    have hi : i ≠ N - 1 := by omega
    rw [if_neg hi]
    have : i * itemsPerThread B N + itemsPerThread B N = (i + 1) * itemsPerThread B N := by
      ring
    rw [this]
    exact Nat.mul_le_mul_right _ (by omega)
  omega

/-- The last worker's range ends exactly at `B` (its `_endInds` value). -/
theorem lastWorker_ends_at_B (B N : Nat) (hB : 1 ≤ B) (hN : 1 ≤ N)
    (h : (N - 1) * itemsPerThread B N ≤ B) :
    startInd B N (N - 1) + itemCount B N (N - 1) = B := by
  rw [startInd, itemCount, if_pos rfl, startInd]
  omega

/-! ## Worker count chosen by `Loader::start`

```
int numCores = thread::hardware_concurrency();
int itemsPerThread = (_batchSize - 1) /  numCores + 1;
int threadCount =  (_batchSize - 1) / itemsPerThread + 1;
threadCount = std::min(threadCount, _batchSize);
```
-/

/-- `itemsPerThread` as computed inside `Loader::start`. -/
def loaderItemsPerThread (B cores : Nat) : Nat := (B - 1) / cores + 1

/-- `threadCount` as computed by `Loader::start` (after the `std::min`). -/
def loaderThreadCount (B cores : Nat) : Nat :=
  min ((B - 1) / loaderItemsPerThread B cores + 1) B

theorem loaderItemsPerThread_eq_ceilDiv (B cores : Nat) :
    loaderItemsPerThread B cores = ceilDiv B cores := rfl

/-- The `std::min` with `_batchSize` in `Loader::start` never bites for
`B ≥ 1`: the computed thread count is already at most `B`. -/
theorem loaderThreadCount_eq (B cores : Nat) (hB : 1 ≤ B) :
    loaderThreadCount B cores = ceilDiv B (loaderItemsPerThread B cores) := by
  rw [loaderThreadCount]
  have h1 : 1 ≤ loaderItemsPerThread B cores := Nat.le_add_left 1 _
  have h2 : (B - 1) / loaderItemsPerThread B cores ≤ B - 1 := Nat.div_le_self _ _
  have : (B - 1) / loaderItemsPerThread B cores + 1 ≤ B := by omega
  rw [Nat.min_eq_left this]
  rfl

theorem loaderThreadCount_le_batch (B cores : Nat) : loaderThreadCount B cores ≤ B :=
  Nat.min_le_right _ B

theorem one_le_loaderThreadCount (B cores : Nat) (hB : 1 ≤ B) :
    1 ≤ loaderThreadCount B cores := by
  rw [loaderThreadCount]
  exact le_min (Nat.le_add_left 1 _) hB

/-- The chosen worker count never exceeds the hardware concurrency. -/
theorem loaderThreadCount_le_cores (B cores : Nat) (hB : 1 ≤ B) (hc : 1 ≤ cores) :
    loaderThreadCount B cores ≤ cores := by
  rw [loaderThreadCount_eq B cores hB, loaderItemsPerThread_eq_ceilDiv]
  have hipt : 1 ≤ ceilDiv B cores := one_le_ceilDiv B cores
  rw [ceilDiv_le_iff B (ceilDiv B cores) cores hB hipt]
  rw [Nat.mul_comm]
  exact le_mul_ceilDiv B cores hB hc

/-- `N` workers with `loaderItemsPerThread` items each cover the batch. -/
theorem loaderThreadCount_suffices (B cores : Nat) (hB : 1 ≤ B) (hc : 1 ≤ cores) :
    B ≤ loaderThreadCount B cores * loaderItemsPerThread B cores := by
  rw [loaderThreadCount_eq B cores hB, loaderItemsPerThread_eq_ceilDiv, Nat.mul_comm]
  exact le_mul_ceilDiv B (ceilDiv B cores) hB (one_le_ceilDiv B cores)

/-- Minimality: no smaller worker count covers the batch at
`loaderItemsPerThread` items per worker. -/
theorem loaderThreadCount_minimal (B cores : Nat) (hB : 1 ≤ B) (hc : 1 ≤ cores)
    (m : Nat) (hm : B ≤ m * loaderItemsPerThread B cores) :
    loaderThreadCount B cores ≤ m := by
  rw [loaderThreadCount_eq B cores hB]
  have hipt : 1 ≤ loaderItemsPerThread B cores := Nat.le_add_left 1 _
  rw [ceilDiv_le_iff B (loaderItemsPerThread B cores) m hB hipt]
  rw [Nat.mul_comm] at hm
  exact hm

/-- The `DecodeThreadPool` constructor, called with the `Loader::start` thread
count, recomputes exactly the same `itemsPerThread` that `Loader::start` used:
`⌈B / ⌈B / ⌈B / cores⌉⌉⌉ = ⌈B / cores⌉`. -/
theorem itemsPerThread_loaderThreadCount (B cores : Nat) (hB : 1 ≤ B) (hc : 1 ≤ cores) :
    itemsPerThread B (loaderThreadCount B cores) = loaderItemsPerThread B cores := by
  set ipt := loaderItemsPerThread B cores with hipt
  set tc := loaderThreadCount B cores with htc
  have hipt1 : 1 ≤ ipt := Nat.le_add_left 1 _
  have htc1 : 1 ≤ tc := one_le_loaderThreadCount B cores hB
  rw [itemsPerThread_eq_ceilDiv]
  apply Nat.le_antisymm
  · rw [ceilDiv_le_iff B tc ipt hB htc1]
    exact loaderThreadCount_suffices B cores hB hc
  · by_contra hlt
    have h1 : ceilDiv B tc ≤ ipt - 1 := by omega
    have h2 : B ≤ tc * (ipt - 1) := (ceilDiv_le_iff B tc (ipt - 1) hB htc1).mp h1
    have h3 : tc * (ipt - 1) ≤ cores * (ipt - 1) :=
      Nat.mul_le_mul_right _ (loaderThreadCount_le_cores B cores hB hc)
    have h4 : cores * (ipt - 1) < B := by
      have := mul_pred_ceilDiv_lt B cores hB hc
      rw [hipt, loaderItemsPerThread_eq_ceilDiv]
      exact this
    omega

/-- The `DecodeThreadPool` constructor assertion
`_itemsPerThread * (count - 1) < _batchSize` holds for the worker count that
`Loader::start` actually passes in. -/
theorem loaderThreadCount_assertion (B cores : Nat) (hB : 1 ≤ B) (hc : 1 ≤ cores) :
    (loaderThreadCount B cores - 1) * itemsPerThread B (loaderThreadCount B cores) < B := by
  rw [itemsPerThread_loaderThreadCount B cores hB hc]
  set ipt := loaderItemsPerThread B cores with hipt
  set tc := loaderThreadCount B cores with htc
  have htc1 : 1 ≤ tc := one_le_loaderThreadCount B cores hB
  by_contra h
  have h' : B ≤ (tc - 1) * ipt := by omega
  have := loaderThreadCount_minimal B cores hB hc (tc - 1) h'
  omega

/-! ## The non-`READ_CONTENTS` target path of `DecodeThreadPool::transform`

```
if (encTargetLen > _targetLen) {
    // TODO: avoid truncating.
    encTargetLen = _targetLen;
}
memcpy(targetBuf, encTarget, encTargetLen);
if (_targetLen > encTargetLen) {
    // Pad the rest of the buffer with zeros.
    memset(targetBuf + encTargetLen, 0, _targetLen - encTargetLen);
}
// Store target length inside metadata.
*(meta + _batchSize) = encTargetLen;
```
Note that `encTargetLen` is overwritten by the truncation before it is stored
in the metadata slot.  The worker calls `transform` with `meta = metaBuf`
pointing at entry `i` of the meta buffer (`_metaOffsets[id] = _startInds[id]`,
advanced by one per item), so `*(meta + _batchSize)` is entry
`batchSize + i`. -/

/-- `_targetLen = targetSize * targetTypeSize` (bytes of one target slot). -/
def targetLenOf (targetSize targetTypeSize : Nat) : Nat := targetSize * targetTypeSize

/-- The value held by the local `encTargetLen` after the truncation branch. -/
def truncatedLen (targetLen encTargetLen : Nat) : Nat :=
  if targetLen < encTargetLen then targetLen else encTargetLen

/-- Contents of the target slot after the `memcpy` / zero-padding `memset`
(bytes modelled as `Nat`). -/
def transformTargetBuf (targetLen : Nat) (encTarget : List Nat) : List Nat :=
  encTarget.take (truncatedLen targetLen encTarget.length) ++
    List.replicate (targetLen - truncatedLen targetLen encTarget.length) 0

/-- The meta buffer after `*(meta + _batchSize) = encTargetLen` for item `i`
(the transform writes at absolute index `batchSize + i`). -/
def transformMeta (batchSize i : Nat) (meta : Nat → Nat) (targetLen : Nat)
    (encTarget : List Nat) : Nat → Nat :=
  Function.update meta (batchSize + i) (truncatedLen targetLen encTarget.length)

theorem truncatedLen_eq_min (targetLen encTargetLen : Nat) :
    truncatedLen targetLen encTargetLen = min encTargetLen targetLen := by
  rw [truncatedLen]
  split <;> omega

theorem replicate_getD_zero (n m : Nat) : (List.replicate n (0 : Nat)).getD m 0 = 0 := by
  induction n generalizing m with
  | zero => simp
  | succ n ih =>
    cases m with
    | zero => simp [List.replicate]
    | succ m => simpa [List.replicate] using ih m

theorem transformTargetBuf_length (targetLen : Nat) (encTarget : List Nat) :
    (transformTargetBuf targetLen encTarget).length = targetLen := by
  rw [transformTargetBuf]
  have h : truncatedLen targetLen encTarget.length ≤ encTarget.length := by
    rw [truncatedLen_eq_min]; omega
  have h2 : truncatedLen targetLen encTarget.length ≤ targetLen := by
    rw [truncatedLen_eq_min]; omega
  simp [List.length_append, List.length_take, List.length_replicate]
  omega

/-- Copied prefix: below the (truncated) length, the slot holds the raw
encoded target bytes. -/
theorem transformTargetBuf_copy (targetLen : Nat) (encTarget : List Nat) (j : Nat)
    (hj : j < truncatedLen targetLen encTarget.length) :
    (transformTargetBuf targetLen encTarget).getD j 0 = encTarget.getD j 0 := by
  rw [transformTargetBuf]
  have hlen : truncatedLen targetLen encTarget.length ≤ encTarget.length := by
    rw [truncatedLen_eq_min]; omega
  have hjlt : j < (encTarget.take (truncatedLen targetLen encTarget.length)).length := by
    rw [List.length_take]; omega
  rw [List.getD_append _ _ _ _ hjlt]
  unfold List.getD
  rw [List.get?_take hj]

/-- Zero padding: between the (truncated) length and `targetLen`, the slot
holds zero. -/
theorem transformTargetBuf_pad (targetLen : Nat) (encTarget : List Nat) (j : Nat)
    (hj : truncatedLen targetLen encTarget.length ≤ j) :
    (transformTargetBuf targetLen encTarget).getD j 0 = 0 := by
  rw [transformTargetBuf]
  have hlen : truncatedLen targetLen encTarget.length ≤ encTarget.length := by
    rw [truncatedLen_eq_min]; omega
  have htk : (encTarget.take (truncatedLen targetLen encTarget.length)).length =
      truncatedLen targetLen encTarget.length := by
    rw [List.length_take]; omega
  by_cases hcase : j < (encTarget.take (truncatedLen targetLen encTarget.length)).length
  · omega
  · rw [List.getD_append_right _ _ _ _ (by omega)]
    exact replicate_getD_zero _ _

/-! ## Functional model of one decode round and of the whole pipeline

`DecodeThreadPool::work(id)` walks items `i ∈ [start, end)` of the *current*
input tuple and writes the decoded results into the slice of the output tuple
starting at byte offset `_startInds[id] * stride`; the decoded minibatch is
therefore the concatenation, in worker order, of the per-worker decoded
slices.  `DecodeThreadPool::consume` pins one read-pool slot, fully produces
one output minibatch from it, and only then advances the read cursor, and
both `BufferPool`s are FIFO circular queues, so the `k`-th minibatch handed
to the trainer is the decode of the `k`-th successful `reader.read`.  The
media transformer is abstracted as a per-item function `f` (the pipeline
calls it once per item, in item order, per worker). -/

/-- The input slice owned by worker `id`: items
`[startInd, startInd + itemCount)` of the input batch. -/
def workerSlice {α : Type} (B N id : Nat) (batch : List α) : List α :=
  (batch.drop (startInd B N id)).take (itemCount B N id)

/-- One decode round of `DecodeThreadPool::produce`: each worker maps the
media transform `f` over its slice; the output buffer is the concatenation of
the worker slices in worker order. -/
def decodeBatch {α β : Type} (f : α → β) (B N : Nat) (batch : List α) : List β :=
  catWorkers (fun id => (workerSlice B N id batch).map f) N

/-- The single-threaded reference decode (function `single` of
`thread_test.cpp`): transform every item of the sequence in order. -/
def singleDecode {α β : Type} (f : α → β) (items : List α) : List β :=
  items.map f

/-- The pipeline as a whole: the `k`-th call to `next()` delivers the decode
of the `k`-th `reader.read` minibatch (FIFO pools, one slot fully processed
before the read cursor advances). -/
def pipelineRun {α β : Type} (f : α → β) (B N : Nat) (batches : List (List α)) :
    List (List β) :=
  batches.map (decodeBatch f B N)

/-- Concatenation of the delivered minibatches. -/
def joinAll {α : Type} : List (List α) → List α
  | [] => []
  | l :: ls => l ++ joinAll ls

theorem catWorkers_map {α β : Type} (f : α → β) (g : Nat → List α) (n : Nat) :
    catWorkers (fun id => (g id).map f) n = (catWorkers g n).map f := by
  induction n with
  | zero => rfl
  | succ n ih => rw [catWorkers, catWorkers, ih, List.map_append]

/-- The worker slices of a batch of length `B` concatenate back to the batch
(under the constructor's asserted partition precondition). -/
theorem catWorkers_workerSlice {α : Type} (B N : Nat) (hN : 1 ≤ N)
    (h : (N - 1) * itemsPerThread B N ≤ B) (batch : List α) (hlen : batch.length = B) :
    catWorkers (fun id => workerSlice B N id batch) N = batch := by
  obtain ⟨M, rfl⟩ : ∃ M, N = M + 1 := ⟨N - 1, by omega⟩
  simp only [Nat.add_sub_cancel] at h
  have prefixLem : ∀ k, k ≤ M →
      catWorkers (fun id => workerSlice B (M+1) id batch) k =
        batch.take (k * itemsPerThread B (M+1)) := by
    intro k hk
    induction k with
    | zero => simp [catWorkers]
    | succ k ih =>
      have hk' : k ≤ M := by omega
      rw [catWorkers, ih hk', workerSlice, itemCount, if_neg (by omega : k ≠ M + 1 - 1),
        startInd]
      have : (k + 1) * itemsPerThread B (M+1) =
          k * itemsPerThread B (M+1) + itemsPerThread B (M+1) := by ring
      rw [this, List.take_add]
  rw [catWorkers, prefixLem M (Nat.le_refl M), workerSlice, itemCount,
    if_pos (by omega : M = M + 1 - 1), startInd]
  have htake : (batch.drop (M * itemsPerThread B (M+1))).take (B - M * itemsPerThread B (M+1)) =
      batch.drop (M * itemsPerThread B (M+1)) := by
    apply List.take_of_length_le
    rw [List.length_drop, hlen]
  rw [htake, List.take_append_drop]

/-- One decode round equals the single-threaded decode of the same batch. -/
theorem decodeBatch_eq_map {α β : Type} (f : α → β) (B N : Nat) (hN : 1 ≤ N)
    (h : (N - 1) * itemsPerThread B N ≤ B) (batch : List α) (hlen : batch.length = B) :
    decodeBatch f B N batch = batch.map f := by
  rw [decodeBatch, catWorkers_map, catWorkers_workerSlice B N hN h batch hlen]

theorem joinAll_map_map {α β : Type} (f : α → β) (ls : List (List α)) :
    joinAll (ls.map (List.map f)) = (joinAll ls).map f := by
  induction ls with
  | nil => rfl
  | cons l ls ih => simp [joinAll, ih]

/-! ## `ReadThread::produce` and the reader failure path

```
BufferTuple& bufs = _out.getForWrite();
int result = _reader->read(bufs);
if (result == -1) {
    _done = true;
    throw std::runtime_error("Could not read data\n");
}
_out.advanceWritePos();
```
The reader is modelled as a function from the read-attempt index to the
`int` result code of `Reader::read`. -/

/-- State of the read stage: number of `reader.read` calls attempted so far,
the read pool's write cursor (number of `advanceWritePos` calls), the
`_done` flag, and whether the fatal `runtime_error` has been raised. -/
structure ReadState where
  attempts : Nat
  wpos : Nat
  done : Bool
  fatal : Bool
  deriving DecidableEq, Repr

def readInit : ReadState := ⟨0, 0, false, false⟩

/-- One execution of `ReadThread::produce`: call `reader.read`; on `-1` set
`_done` and raise the fatal condition *without* advancing the write cursor;
otherwise advance the write cursor. -/
def readProduce (read : Nat → Int) (s : ReadState) : ReadState :=
  if read s.attempts = -1 then
    { s with attempts := s.attempts + 1, done := true, fatal := true }
  else
    { s with attempts := s.attempts + 1, wpos := s.wpos + 1 }

/-- Modelled from the spec: the worker loop of the `ThreadPool` base class
(`thread.hpp`, not among the sources) — "a single-worker loop … repeat until
shutdown requested", where `work` runs only while `_done` is false.
`readRun read n` is the stage state after `n` loop iterations. -/
def readRun (read : Nat → Int) : Nat → ReadState
  | 0 => readInit
  | n + 1 =>
    let s := readRun read n
    if s.done then s else readProduce read s

theorem readRun_ok (read : Nat → Int) (k : Nat) (hpre : ∀ j, j < k → read j ≠ -1) :
    readRun read k = ⟨k, k, false, false⟩ := by
  induction k with
  | zero => rfl
  | succ k ih =>
    have ihk : readRun read k = ⟨k, k, false, false⟩ :=
      ih (fun j hj => hpre j (by omega))
    rw [readRun]
    simp only [ihk]
    rw [if_neg (by simp)]
    rw [readProduce]
    simp only []
    rw [if_neg (hpre k (by omega))]

/-! ## `Loader::start` allocation sequence and `Loader::reset`

`Loader::start` allocates, in order, `_readBufs`, `_readThread`,
`_decodeBufs`, `_decodeThreads`, inside a `try { … } catch (std::bad_alloc&)
{ return -1; }`; only after all four succeed does it start the decode and
read threads and return 0.  The `catch` does not uninstall the members that
were already assigned.  An allocation oracle `ok : Fin 4 → Bool` says which
of the four `new` expressions succeeds. -/

/-- The pointer members of the `Loader` facade relevant to `start` (`true` =
non-null / installed), plus whether any threads were spawned. -/
structure Facade where
  readBufs : Bool
  readThread : Bool
  decodeBufs : Bool
  decodeThreads : Bool
  threadsStarted : Bool
  deriving DecidableEq, Repr

def facadeInit : Facade := ⟨false, false, false, false, false⟩

/-- `Loader::start`: returns the `int` result and the facade state it leaves
behind. -/
def loaderStart (ok : Fin 4 → Bool) : Int × Facade :=
  if ok 0 = false then (-1, facadeInit) else
  let f1 : Facade := { facadeInit with readBufs := true }
  if ok 1 = false then (-1, f1) else
  let f2 : Facade := { f1 with readThread := true }
  if ok 2 = false then (-1, f2) else
  let f3 : Facade := { f2 with decodeBufs := true }
  if ok 3 = false then (-1, f3) else
  (0, { f3 with decodeThreads := true, threadsStarted := true })

/-- `Loader::reset`: `stop(); _reader->reset(); start(); return 0;` — the
result of the inner `start()` is discarded and `reset` returns 0
unconditionally. -/
def loaderReset (ok : Fin 4 → Bool) : Int × Facade :=
  ((0 : Int), (loaderStart ok).2)

/-- Full characterization of `loaderStart`: the result is 0 iff every
allocation succeeded, threads are spawned exactly in that case, and each
member is installed iff every allocation up to it succeeded (so a failure
mid-sequence leaves the earlier members installed). -/
theorem loaderStart_spec (ok : Fin 4 → Bool) :
    loaderStart ok =
      (if ok 0 && ok 1 && ok 2 && ok 3 then (0 : Int) else -1,
       { readBufs := ok 0,
         readThread := ok 0 && ok 1,
         decodeBufs := ok 0 && ok 1 && ok 2,
         decodeThreads := ok 0 && ok 1 && ok 2 && ok 3,
         threadsStarted := ok 0 && ok 1 && ok 2 && ok 3 }) := by
  rw [loaderStart]
  cases h0 : ok 0 <;> cases h1 : ok 1 <;> cases h2 : ok 2 <;> cases h3 : ok 3 <;>
    simp [facadeInit]

/-! ## The fan-out / fan-in barrier of `DecodeThreadPool`

`produce()` (manager), under the internal `_mutex`, sets
`_startSignaled[i] = 1` for every worker and broadcasts `_started`; it then
waits on `_ended` until `_endSignaled == _count` and resets `_endSignaled`
to 0.  `work(id)` (worker) waits until `_startSignaled[id] != 0`, decrements
it (the code asserts it is then 0), decodes its slice, and, under `_mutex`,
increments `_endSignaled` (asserting `_endSignaled <= _count`) and signals
`_ended`.  The mutex makes each of these four accesses atomic, which is what
the small-step system below models; `rounds` and `consumed` are ghost
counters (completed manager rounds / start units consumed per worker). -/

/-- Barrier-relevant state of a `DecodeThreadPool` with `N` workers. -/
structure BState (N : Nat) where
  /-- manager is inside a round: it has broadcast the start signals and has
  not yet reset `_endSignaled`. -/
  mrun : Bool
  /-- worker `i` is between consuming its start signal and incrementing
  `_endSignaled` (1 while decoding, else 0). -/
  working : Fin N → Nat
  /-- `_startSignaled[i]`. -/
  startSig : Fin N → Nat
  /-- `_endSignaled`. -/
  ended : Nat
  /-- ghost: completed manager rounds. -/
  rounds : Nat
  /-- ghost: start units consumed by worker `i` so far. -/
  consumed : Fin N → Nat

/-- Initial state: before the first `produce` round. -/
def binit (N : Nat) : BState N := ⟨false, fun _ => 0, fun _ => 0, 0, 0, fun _ => 0⟩

/-- Atomic steps of the barrier protocol. -/
inductive BStep (N : Nat) : BState N → BState N → Prop where
  /-- `produce`, first half: `for i: _startSignaled[i] = 1;` + broadcast. -/
  | mStart (s : BState N) (h : s.mrun = false) :
      BStep N s { s with mrun := true, startSig := fun _ => 1 }
  /-- `work`, first half: wait until `_startSignaled[id] != 0`, then
  `_startSignaled[id]--`. -/
  | wTake (s : BState N) (i : Fin N) (h1 : s.startSig i ≠ 0) (h2 : s.working i = 0) :
      BStep N s { s with
        startSig := Function.update s.startSig i (s.startSig i - 1),
        working := Function.update s.working i 1,
        consumed := Function.update s.consumed i (s.consumed i + 1) }
  /-- `work`, second half: decode done, `_endSignaled++` + signal. -/
  | wDone (s : BState N) (i : Fin N) (h : s.working i ≠ 0) :
      BStep N s { s with working := Function.update s.working i 0, ended := s.ended + 1 }
  /-- `produce`, second half: wait until `_endSignaled == _count`, then
  `_endSignaled = 0` (round complete: transpose, device copy, publish). -/
  | mEnd (s : BState N) (h1 : s.mrun = true) (h2 : s.ended = N) :
      BStep N s { s with ended := 0, mrun := false, rounds := s.rounds + 1 }

/-- Reachability from the initial barrier state. -/
def BReach (N : Nat) (s : BState N) : Prop := Relation.ReflTransGen (BStep N) (binit N) s

/-- The inductive barrier invariant. -/
def BInv (N : Nat) (s : BState N) : Prop :=
  (∀ i, s.startSig i ≤ 1) ∧
  (∀ i, s.working i ≤ 1) ∧
  (s.mrun = false →
    s.ended = 0 ∧ ∀ i, s.startSig i = 0 ∧ s.working i = 0 ∧ s.consumed i = s.rounds) ∧
  (s.mrun = true →
    s.ended + (∑ i, s.working i) + (∑ i, s.startSig i) = N ∧
    ∀ i, s.consumed i + s.startSig i = s.rounds + 1)

theorem sum_update_add {N : Nat} (f : Fin N → Nat) (i : Fin N) (v : Nat) :
    (∑ x, Function.update f i v x) + f i = v + ∑ x, f x := by
  rw [Finset.sum_update_of_mem (Finset.mem_univ i),
    Finset.sum_eq_sum_diff_singleton_add (Finset.mem_univ i) f]
  ring

theorem binit_inv (N : Nat) : BInv N (binit N) := by
  refine ⟨fun i => Nat.zero_le 1, fun i => Nat.zero_le 1, fun _ => ⟨rfl, fun i => ⟨rfl, rfl, rfl⟩⟩, fun h => ?_⟩
  simp [binit] at h

theorem binv_step (N : Nat) (s t : BState N) (hinv : BInv N s) (hstep : BStep N s t) :
    BInv N t := by
  obtain ⟨hs1, hw1, hidle, hrun⟩ := hinv
  cases hstep with
  | mStart h =>
    obtain ⟨hend, hall⟩ := hidle h
    refine ⟨fun i => Nat.le_refl 1, hw1, fun hc => by simp at hc, fun _ => ?_⟩
    have hwsum : (∑ i, s.working i) = 0 :=
      Finset.sum_eq_zero fun i _ => (hall i).2.1
    have hssum : (∑ _i : Fin N, (1 : Nat)) = N := by
      simp
    refine ⟨by rw [hend, hwsum, hssum]; omega, fun i => ?_⟩
    rw [(hall i).2.2]
  | wTake i h1 h2 =>
    cases hmr : s.mrun with
    | false =>
      obtain ⟨-, hall⟩ := hidle hmr
      exact absurd ((hall i).1) h1
    | true =>
      obtain ⟨hsum, hcons⟩ := hrun hmr
      have hsi : s.startSig i = 1 := by have := hs1 i; omega
      refine ⟨fun j => ?_, fun j => ?_, fun hc => by simp [hmr] at hc, fun _ => ?_⟩
      · dsimp only
        by_cases hj : j = i
        · subst hj; rw [Function.update_same]; omega
        · rw [Function.update_noteq hj]; exact hs1 j
      · dsimp only
        by_cases hj : j = i
        · subst hj; rw [Function.update_same]
        · rw [Function.update_noteq hj]; exact hw1 j
      · have hSsum := sum_update_add s.startSig i (s.startSig i - 1)
        have hWsum := sum_update_add s.working i 1
        constructor
        · dsimp only
          omega
        · intro j
          dsimp only
          by_cases hj : j = i
          · subst hj
            simp only [Function.update_same]
            have := hcons j
            omega
          · simp only [Function.update_noteq hj]
            exact hcons j
  | wDone i h =>
    cases hmr : s.mrun with
    | false =>
      obtain ⟨-, hall⟩ := hidle hmr
      exact absurd ((hall i).2.1) h
    | true =>
      obtain ⟨hsum, hcons⟩ := hrun hmr
      have hwi : s.working i = 1 := by have := hw1 i; omega
      refine ⟨hs1, fun j => ?_, fun hc => by simp [hmr] at hc, fun _ => ?_⟩
      · dsimp only
        by_cases hj : j = i
        · subst hj; rw [Function.update_same]; omega
        · rw [Function.update_noteq hj]; exact hw1 j
      · have hWsum := sum_update_add s.working i 0
        refine ⟨by dsimp only; omega, hcons⟩
  | mEnd h1 h2 =>
    obtain ⟨hsum, hcons⟩ := hrun h1
    have hwsum : (∑ i, s.working i) = 0 := by omega
    have hssum : (∑ i, s.startSig i) = 0 := by omega
    have hwz : ∀ i, s.working i = 0 := fun i =>
      Finset.sum_eq_zero_iff.mp hwsum i (Finset.mem_univ i)
    have hsz : ∀ i, s.startSig i = 0 := fun i =>
      Finset.sum_eq_zero_iff.mp hssum i (Finset.mem_univ i)
    refine ⟨hs1, hw1, fun _ => ⟨rfl, fun i => ⟨hsz i, hwz i, ?_⟩⟩, fun hc => by simp at hc⟩
    have := hcons i
    have := hsz i
    dsimp only
    omega

/-- Every reachable barrier state satisfies the invariant. -/
theorem breach_inv (N : Nat) (s : BState N) (h : BReach N s) : BInv N s := by
  induction h with
  | refl => exact binit_inv N
  | tail _ hbc ih => exact binv_step N _ _ ih hbc

/-! ## Decode pool, double buffering and `Loader::next`

`_decodeBufs` is a 2-slot FIFO `BufferPool`; its cursors are modelled as
monotone counters `wpos` (minibatches published by `produce`, i.e.
`advanceWritePos` calls) and `rpos` (minibatches released by the trainer,
i.e. `advanceReadPos` calls); the pool holds `wpos - rpos ≤ 2` tuples.
`DecodeThreadPool::produce` waits for `¬full`, decodes, copies the minibatch
to device slot `_bufferIndex`, flips `_bufferIndex`, and only then
`advanceWritePos`.  `Loader::next()` (production path) takes the pool mutex,
on a non-first call advances the read cursor and signals `nonFull`
(releasing the previous minibatch), and only then waits until the pool is
non-empty.  The ghost list `copiedSlots` records, for each published
minibatch in order, the device slot it was copied to. -/

/-- Combined state of the decode-pool / device / trainer interplay. -/
structure PState where
  /-- decode-pool write cursor: minibatches published so far. -/
  wpos : Nat
  /-- decode-pool read cursor: minibatches released by the trainer. -/
  rpos : Nat
  /-- `Loader::_first`. -/
  first : Bool
  /-- trainer is inside `next()`, between the release and the blocking wait's
  return. -/
  inNext : Bool
  /-- a `next()` has returned and the trainer still holds minibatch `rpos`. -/
  holding : Bool
  /-- `DecodeThreadPool::_bufferIndex`. -/
  bufferIndex : Nat
  /-- manager is inside `produce` past the `¬full` wait (decoding and
  copying minibatch `wpos` to device slot `bufferIndex`). -/
  copying : Bool
  /-- ghost: `copiedSlots[k]` is the device slot minibatch `k` was copied
  to. -/
  copiedSlots : List Nat

/-- Initial state, right after `Loader::start`. -/
def pinit : PState :=
  { wpos := 0, rpos := 0, first := true, inNext := false, holding := false,
    bufferIndex := 0, copying := false, copiedSlots := [] }

/-- Atomic steps of the decode-pool / trainer protocol. -/
inductive PStep : PState → PState → Prop where
  /-- `produce`: the `¬full` wait completes (`wpos - rpos < 2`); the decode
  barrier runs and the minibatch is copied to device slot `bufferIndex`. -/
  | produceBegin (s : PState) (h1 : s.copying = false) (h2 : s.wpos - s.rpos < 2) :
      PStep s { s with copying := true }
  /-- `produce`: after the device copy, flip `_bufferIndex` and
  `advanceWritePos` (publishing minibatch `wpos`). -/
  | produceEnd (s : PState) (h : s.copying = true) :
      PStep s { s with
        copying := false, wpos := s.wpos + 1,
        bufferIndex := 1 - s.bufferIndex,
        copiedSlots := s.copiedSlots ++ [s.bufferIndex] }
  /-- `next()`, first call: `_first` is true, so nothing is released; fall
  through to the `¬empty` wait. -/
  | nextEnterFirst (s : PState) (h1 : s.inNext = false) (h2 : s.first = true) :
      PStep s { s with inNext := true, first := false }
  /-- `next()`, later call: `advanceReadPos` + `signalNonFull` releases the
  previously held minibatch *before* the `¬empty` wait. -/
  | nextEnterLater (s : PState) (h1 : s.inNext = false) (h2 : s.first = false)
      (h3 : s.holding = true) :
      PStep s { s with inNext := true, holding := false, rpos := s.rpos + 1 }
  /-- `next()`: the `¬empty` wait completes (`rpos < wpos`) and `next`
  returns with the trainer holding minibatch `rpos`. -/
  | nextReturn (s : PState) (h1 : s.inNext = true) (h2 : s.rpos < s.wpos) :
      PStep s { s with inNext := false, holding := true }

/-- Reachability from the post-`start` state. -/
def PReach (s : PState) : Prop := Relation.ReflTransGen PStep pinit s

/-- Inductive invariant of the decode-pool / trainer system. -/
def PInv (s : PState) : Prop :=
  s.bufferIndex = s.wpos % 2 ∧
  s.rpos ≤ s.wpos ∧
  (s.holding = true → s.rpos < s.wpos) ∧
  (s.copying = true → s.wpos - s.rpos < 2) ∧
  (s.holding = true → s.inNext = false) ∧
  (s.inNext = true → s.first = false) ∧
  (s.first = true → s.rpos = 0 ∧ s.holding = false) ∧
  (s.first = false → s.inNext = true ∨ s.holding = true) ∧
  s.copiedSlots.length = s.wpos ∧
  (∀ k, k < s.wpos → s.copiedSlots.getD k 2 = k % 2)

theorem pinit_inv : PInv pinit := by
  refine ⟨rfl, Nat.le_refl 0, by simp [pinit], by simp [pinit], by simp [pinit],
    by simp [pinit], fun _ => ⟨rfl, rfl⟩, by simp [pinit], rfl,
    fun k hk => by simp [pinit] at hk⟩

theorem pinv_step (s t : PState) (hinv : PInv s) (hstep : PStep s t) : PInv t := by
  obtain ⟨hbuf, hrw, hhold, hcopy, hhn, hin, hfirst, hnf, hlen, hslots⟩ := hinv
  cases hstep with
  | produceBegin h1 h2 =>
    exact ⟨hbuf, hrw, hhold, fun _ => h2, hhn, hin, hfirst, hnf, hlen, hslots⟩
  | produceEnd h =>
    refine ⟨?_, by dsimp only; omega, fun hh => by have := hhold hh; dsimp only; omega,
      fun hc => by simp at hc, hhn, hin, hfirst, hnf, ?_, ?_⟩
    · dsimp only
      omega
    · dsimp only
      rw [List.length_append, hlen]
      rfl
    · intro k hk
      dsimp only at hk ⊢
      by_cases hklt : k < s.wpos
      · rw [List.getD_append _ _ _ _ (by omega)]
        exact hslots k hklt
      · have hkeq : k = s.wpos := by omega
        subst hkeq
        rw [List.getD_append_right _ _ _ _ (by omega), hlen]
        simp [hbuf]
  | nextEnterFirst h1 h2 =>
    obtain ⟨hr0, hhf⟩ := hfirst h2
    refine ⟨hbuf, hrw, fun hh => hhold hh, hcopy, fun hh => ?_, fun _ => rfl,
      fun hc => by simp at hc, fun _ => Or.inl rfl, hlen, hslots⟩
    · rw [hhf] at hh
      cases hh
  | nextEnterLater h1 h2 h3 =>
    have hlt := hhold h3
    refine ⟨hbuf, by dsimp only; omega, fun hh => by simp at hh, fun hc => ?_,
      fun hh => by simp at hh, fun _ => h2,
      fun hf => by rw [hf] at h2; simp at h2,
      fun _ => Or.inl rfl, hlen, hslots⟩
    · have := hcopy hc
      dsimp only
      omega
  | nextReturn h1 h2 =>
    have hf1 : s.first = false := hin h1
    refine ⟨hbuf, hrw, fun _ => h2, hcopy, fun _ => rfl, fun hi => by simp at hi, ?_,
      fun _ => Or.inr rfl, hlen, hslots⟩
    intro hf
    rw [hf] at hf1
    cases hf1

/-- Every reachable decode-pool state satisfies the invariant. -/
theorem preach_inv (s : PState) (h : PReach s) : PInv s := by
  induction h with
  | refl => exact pinit_inv
  | tail _ hbc ih => exact pinv_step _ _ ih hbc

/-! ## The claims -/

theorem map_getD_nil {α β : Type} (g : List α → List β) (hg : g [] = [])
    (ls : List (List α)) (k : Nat) : (ls.map g).getD k [] = g (ls.getD k []) := by
  induction ls generalizing k with
  | nil => simp [hg]
  | cons l ls ih =>
    cases k with
    | zero => rfl
    | succ k => simpa using ih k

/-- C1.  FIFO fidelity end to end: starting the pipeline with the worker
count chosen by `Loader::start` and calling `next()` once per minibatch, the
delivered minibatches, concatenated, equal the single-threaded decode of the
same item sequence, and the `k`-th successful `reader.read` corresponds to
the `k`-th successful `next()` (the `k`-th delivered minibatch is the decode
of the `k`-th batch read). -/
theorem claim_c1_fifo_fidelity {α β : Type} (f : α → β) (B cores : Nat)
    (hB : 1 ≤ B) (hc : 1 ≤ cores) (batches : List (List α))
    (hlen : ∀ b ∈ batches, b.length = B) :
    joinAll (pipelineRun f B (loaderThreadCount B cores) batches) =
      singleDecode f (joinAll batches) ∧
    ∀ k, (pipelineRun f B (loaderThreadCount B cores) batches).getD k [] =
      singleDecode f (batches.getD k []) := by
  have hN : 1 ≤ loaderThreadCount B cores := one_le_loaderThreadCount B cores hB
  have hassert : (loaderThreadCount B cores - 1) *
      itemsPerThread B (loaderThreadCount B cores) ≤ B :=
    Nat.le_of_lt (loaderThreadCount_assertion B cores hB hc)
  have hbatch : ∀ b ∈ batches, decodeBatch f B (loaderThreadCount B cores) b = b.map f :=
    fun b hb => decodeBatch_eq_map f B (loaderThreadCount B cores) hN hassert b (hlen b hb)
  have hmap : pipelineRun f B (loaderThreadCount B cores) batches =
      batches.map (List.map f) := by
    rw [pipelineRun]
    exact List.map_congr_left hbatch
  constructor
  · rw [hmap, joinAll_map_map, singleDecode]
  · intro k
    by_cases hk : k < batches.length
    · rw [hmap, map_getD_nil (List.map f) rfl, singleDecode]
    · have h1 : batches.length ≤ k := by omega
      have h2 : (pipelineRun f B (loaderThreadCount B cores) batches).length ≤ k := by
        rw [pipelineRun, List.length_map]; omega
      rw [List.getD_eq_default _ _ h2, List.getD_eq_default _ _ h1]
      rfl

/-- C1 witness: `B = 2`, one core (so one worker), two minibatches. -/
theorem claim_c1_witness :
    joinAll (pipelineRun (fun x => x + 1) 2 (loaderThreadCount 2 1) [[10, 20], [30, 40]]) =
      singleDecode (fun x => x + 1) (joinAll [[10, 20], [30, 40]]) ∧
    ∀ k, (pipelineRun (fun x => x + 1) 2 (loaderThreadCount 2 1)
        [[10, 20], [30, 40]]).getD k [] =
      singleDecode (fun x => x + 1) ([[10, 20], [30, 40]].getD k []) :=
  claim_c1_fifo_fidelity (fun x => x + 1) 2 1 (by decide) (by decide)
    [[10, 20], [30, 40]] (by decide)

/-- C2 counterexample: at `B = 2`, `N = 4` (a worker count the claim's
universal quantifier admits but the constructor's assertion rejects), worker
2 computes the non-empty range `[2, 3)` while the spec formula gives the
empty range, and the union of the computed ranges is `[0, 3) ≠ [0, 2)`:
the claim is false for every `B ≥ 1, N ≥ 1` as stated. -/
theorem claim_c2_counterexample :
    workerItems 2 4 2 = [2] ∧ specRange 2 4 2 = [] ∧
      catWorkers (workerItems 2 4) 4 = [0, 1, 2] ∧ List.range 2 = [0, 1] := by
  decide

/-- C2 (amended): for every `B ≥ 1` and `N ≥ 1` such that
`(N-1)·itemsPerThread ≤ B` — which the `DecodeThreadPool` constructor
assertion `_itemsPerThread * (count - 1) < _batchSize` guarantees, and which
holds for every worker count `Loader::start` constructs — the per-worker
ranges match the spec formula `[id·itemsPerThread, min((id+1)·itemsPerThread,
B))`, are pairwise disjoint, concatenate to exactly `[0, B)`, and worker
`N-1`'s range ends at `B`. -/
theorem claim_c2_partition_coverage (B N : Nat) (hB : 1 ≤ B) (hN : 1 ≤ N)
    (h : (N - 1) * itemsPerThread B N ≤ B) :
    catWorkers (workerItems B N) N = List.range B ∧
    (∀ id, id < N → workerItems B N id = specRange B N id) ∧
    (∀ i j x y, i < j → j < N → x ∈ workerItems B N i → y ∈ workerItems B N j → x < y) ∧
    startInd B N (N - 1) + itemCount B N (N - 1) = B :=
  ⟨catWorkers_workerItems B N hN h,
   fun id hid => workerItems_eq_specRange B N hB hN h id hid,
   fun i j x y hij hj hx hy => workerItems_disjoint B N hB hN h i j hij hj x hx y hy,
   lastWorker_ends_at_B B N hB hN h⟩

/-- C2 witness: `B = 7`, `N = 3` (partitions `[0,3), [3,6), [6,7)`). -/
theorem claim_c2_witness :
    catWorkers (workerItems 7 3) 3 = List.range 7 ∧
    (∀ id, id < 3 → workerItems 7 3 id = specRange 7 3 id) ∧
    (∀ i j x y, i < j → j < 3 → x ∈ workerItems 7 3 i → y ∈ workerItems 7 3 j → x < y) ∧
    startInd 7 3 (3 - 1) + itemCount 7 3 (3 - 1) = 7 :=
  claim_c2_partition_coverage 7 3 (by decide) (by decide) (by decide)

/-- C3 counterexample: with a 2-byte target slot and a 3-byte encoded target,
the transform records the *truncated* length 2 in the metadata slot, not the
original length 3 — because the code overwrites `encTargetLen` with
`_targetLen` before executing `*(meta + _batchSize) = encTargetLen`. -/
theorem claim_c3_counterexample :
    transformMeta 4 0 (fun _ => 0) 2 [1, 2, 3] (4 + 0) = 2 ∧
      ([1, 2, 3] : List Nat).length = 3 ∧ (2 : Nat) ≠ 3 := by
  refine ⟨?_, rfl, by decide⟩
  rw [transformMeta, Function.update_same]
  decide

/-- C3 (amended): in the non-`READ_CONTENTS` path, for every item the
transform copies the raw encoded target into the target slot truncated to
`targetSize·targetTypeSize` bytes, zero-pads the remainder of the slot when
the encoded target is shorter, and records the *truncated* length
`min(encTargetLen, targetSize·targetTypeSize)` — which equals the original
encoded length only when no truncation occurs — in `meta[batchSize + i]`,
leaving all other metadata entries unchanged. -/
theorem claim_c3_target_transform (targetSize targetTypeSize batchSize i : Nat)
    (meta : Nat → Nat) (encTarget : List Nat) :
    (transformTargetBuf (targetLenOf targetSize targetTypeSize) encTarget).length =
      targetLenOf targetSize targetTypeSize ∧
    (∀ j, j < truncatedLen (targetLenOf targetSize targetTypeSize) encTarget.length →
      (transformTargetBuf (targetLenOf targetSize targetTypeSize) encTarget).getD j 0 =
        encTarget.getD j 0) ∧
    (∀ j, truncatedLen (targetLenOf targetSize targetTypeSize) encTarget.length ≤ j →
      (transformTargetBuf (targetLenOf targetSize targetTypeSize) encTarget).getD j 0 = 0) ∧
    truncatedLen (targetLenOf targetSize targetTypeSize) encTarget.length =
      min encTarget.length (targetLenOf targetSize targetTypeSize) ∧
    transformMeta batchSize i meta (targetLenOf targetSize targetTypeSize) encTarget
        (batchSize + i) =
      min encTarget.length (targetLenOf targetSize targetTypeSize) ∧
    (∀ k, k ≠ batchSize + i →
      transformMeta batchSize i meta (targetLenOf targetSize targetTypeSize) encTarget k =
        meta k) ∧
    (encTarget.length ≤ targetLenOf targetSize targetTypeSize →
      transformMeta batchSize i meta (targetLenOf targetSize targetTypeSize) encTarget
          (batchSize + i) =
        encTarget.length) := by
  refine ⟨transformTargetBuf_length _ _,
    fun j hj => transformTargetBuf_copy _ _ j hj,
    fun j hj => transformTargetBuf_pad _ _ j hj,
    truncatedLen_eq_min _ _, ?_, ?_, ?_⟩
  · rw [transformMeta, Function.update_same, truncatedLen_eq_min]
  · intro k hk
    rw [transformMeta, Function.update_noteq hk]
  · intro hle
    rw [transformMeta, Function.update_same, truncatedLen_eq_min]
    omega

/-- C3 witness: a 2-byte slot (`targetSize = 1`, `targetTypeSize = 2`),
item `i = 1` of a batch of 4, 3-byte encoded target. -/
theorem claim_c3_witness :
    (transformTargetBuf (targetLenOf 1 2) [5, 6, 9]).length = targetLenOf 1 2 ∧
    (∀ j, j < truncatedLen (targetLenOf 1 2) ([5, 6, 9] : List Nat).length →
      (transformTargetBuf (targetLenOf 1 2) [5, 6, 9]).getD j 0 =
        ([5, 6, 9] : List Nat).getD j 0) ∧
    (∀ j, truncatedLen (targetLenOf 1 2) ([5, 6, 9] : List Nat).length ≤ j →
      (transformTargetBuf (targetLenOf 1 2) [5, 6, 9]).getD j 0 = 0) ∧
    truncatedLen (targetLenOf 1 2) ([5, 6, 9] : List Nat).length =
      min ([5, 6, 9] : List Nat).length (targetLenOf 1 2) ∧
    transformMeta 4 1 (fun _ => 7) (targetLenOf 1 2) [5, 6, 9] (4 + 1) =
      min ([5, 6, 9] : List Nat).length (targetLenOf 1 2) ∧
    (∀ k, k ≠ 4 + 1 →
      transformMeta 4 1 (fun _ => 7) (targetLenOf 1 2) [5, 6, 9] k = (fun _ => 7) k) ∧
    (([5, 6, 9] : List Nat).length ≤ targetLenOf 1 2 →
      transformMeta 4 1 (fun _ => 7) (targetLenOf 1 2) [5, 6, 9] (4 + 1) =
        ([5, 6, 9] : List Nat).length) :=
  claim_c3_target_transform 1 2 4 1 (fun _ => 7) [5, 6, 9]

/-- C4 counterexample: at `B = 128` and `hardware_concurrency = 8`,
`Loader::start` computes `N = 8` (via `threadCount = ⌈B / ⌈B/cores⌉⌉`), while
the claimed formula `min(B, ⌈B / cores⌉)` gives 16. -/
theorem claim_c4_counterexample :
    loaderThreadCount 128 8 = 8 ∧ min 128 ((128 - 1) / 8 + 1) = 16 ∧
      loaderThreadCount 128 8 ≠ min 128 ((128 - 1) / 8 + 1) := by
  decide

/-- C4 (amended): for every `B ≥ 1` and `hardware_concurrency ≥ 1`,
`Loader::start` chooses `N = ⌈B / itemsPerThread⌉` with
`itemsPerThread = ⌈B / hardware_concurrency⌉` (the `std::min` with `B` never
bites); this `N` satisfies `1 ≤ N ≤ min(B, hardware_concurrency)`, is the
smallest worker count that covers the batch at `itemsPerThread` items per
worker, makes the `DecodeThreadPool` constructor recompute the same
`itemsPerThread`, and satisfies the constructor's partition assertion. -/
theorem claim_c4_thread_count (B cores : Nat) (hB : 1 ≤ B) (hc : 1 ≤ cores) :
    loaderThreadCount B cores = ceilDiv B (loaderItemsPerThread B cores) ∧
    1 ≤ loaderThreadCount B cores ∧
    loaderThreadCount B cores ≤ B ∧
    loaderThreadCount B cores ≤ cores ∧
    B ≤ loaderThreadCount B cores * loaderItemsPerThread B cores ∧
    (∀ m, B ≤ m * loaderItemsPerThread B cores → loaderThreadCount B cores ≤ m) ∧
    itemsPerThread B (loaderThreadCount B cores) = loaderItemsPerThread B cores ∧
    (loaderThreadCount B cores - 1) * itemsPerThread B (loaderThreadCount B cores) < B :=
  ⟨loaderThreadCount_eq B cores hB,
   one_le_loaderThreadCount B cores hB,
   loaderThreadCount_le_batch B cores,
   loaderThreadCount_le_cores B cores hB hc,
   loaderThreadCount_suffices B cores hB hc,
   fun m hm => loaderThreadCount_minimal B cores hB hc m hm,
   itemsPerThread_loaderThreadCount B cores hB hc,
   loaderThreadCount_assertion B cores hB hc⟩

/-- C4 witness: `B = 128`, `hardware_concurrency = 8`. -/
theorem claim_c4_witness :
    loaderThreadCount 128 8 = ceilDiv 128 (loaderItemsPerThread 128 8) ∧
    1 ≤ loaderThreadCount 128 8 ∧
    loaderThreadCount 128 8 ≤ 128 ∧
    loaderThreadCount 128 8 ≤ 8 ∧
    128 ≤ loaderThreadCount 128 8 * loaderItemsPerThread 128 8 ∧
    (∀ m, 128 ≤ m * loaderItemsPerThread 128 8 → loaderThreadCount 128 8 ≤ m) ∧
    itemsPerThread 128 (loaderThreadCount 128 8) = loaderItemsPerThread 128 8 ∧
    (loaderThreadCount 128 8 - 1) * itemsPerThread 128 (loaderThreadCount 128 8) < 128 :=
  claim_c4_thread_count 128 8 (by decide) (by decide)

/-- Intermediate states of the C5 counterexample trace. -/
def pC5a : PState :=
  { wpos := 0, rpos := 0, first := false, inNext := true, holding := false,
    bufferIndex := 0, copying := false, copiedSlots := [] }

def pC5b : PState :=
  { wpos := 0, rpos := 0, first := false, inNext := true, holding := false,
    bufferIndex := 0, copying := true, copiedSlots := [] }

def pC5c : PState :=
  { wpos := 1, rpos := 0, first := false, inNext := true, holding := false,
    bufferIndex := 1, copying := false, copiedSlots := [0] }

/-- State after: trainer enters first `next()`; manager produces minibatch 0
(copied to device slot 0, `bufferIndex` flipped to 1); `next()` returns. -/
def pC5d : PState :=
  { wpos := 1, rpos := 0, first := false, inNext := false, holding := true,
    bufferIndex := 1, copying := false, copiedSlots := [0] }

/-- C5 counterexample: in the reachable state after the first produced
minibatch is handed to the trainer, the trainer holds minibatch 0, which is
resident in device slot 0, while `_bufferIndex` has already been flipped
to 1 — so "the current minibatch is resident in device slot `bufferIndex`"
is false as stated. -/
theorem claim_c5_counterexample :
    PReach pC5d ∧ pC5d.holding = true ∧
      pC5d.copiedSlots.getD pC5d.rpos 2 ≠ pC5d.bufferIndex := by
  refine ⟨?_, rfl, by decide⟩
  have h1 : PStep pinit pC5a := PStep.nextEnterFirst pinit rfl rfl
  have h2 : PStep pC5a pC5b := PStep.produceBegin pC5a rfl (by decide)
  have h3 : PStep pC5b pC5c := PStep.produceEnd pC5b rfl
  have h4 : PStep pC5c pC5d := PStep.nextReturn pC5c rfl (by decide)
  exact Relation.ReflTransGen.tail
    (Relation.ReflTransGen.tail
      (Relation.ReflTransGen.tail (Relation.ReflTransGen.single h1) h2) h3) h4

/-- C5 (amended): the production-path `next()` follows release-then-wait: on
the first call after start it releases nothing (nothing has ever been
released while `_first` holds); on every later call it first advances the
decode pool's read cursor and signals `nonFull`, and only then blocks until
the pool is non-empty; on return the trainer holds the current minibatch
`rpos`, which is resident in the device slot it was copied to, namely
`rpos mod 2` — the slot `_bufferIndex` designated at copy time, `_bufferIndex`
itself having been flipped since. -/
theorem claim_c5_release_then_wait (s t : PState) (hs : PReach s) (hstep : PStep s t) :
    (s.first = true → s.rpos = 0) ∧
    (s.inNext = false → t.inNext = true →
      (s.first = true → t.rpos = s.rpos) ∧ (s.first = false → t.rpos = s.rpos + 1)) ∧
    (s.inNext = true → t.inNext = false →
      s.rpos < s.wpos ∧ t.holding = true ∧ t.rpos = s.rpos ∧
        t.copiedSlots.getD t.rpos 2 = t.rpos % 2) := by
  obtain ⟨hbuf, hrw, hhold, hcopy, hhn, hin, hfirst, hnf, hlen, hslots⟩ := preach_inv s hs
  refine ⟨fun hf => (hfirst hf).1, ?_, ?_⟩
  · intro henter hentered
    cases hstep with
    | produceBegin h1 h2 => simp at hentered; exact absurd hentered (by rw [henter]; simp)
    | produceEnd h => exact absurd hentered (by dsimp only; rw [henter]; simp)
    | nextEnterFirst h1 h2 =>
      exact ⟨fun _ => rfl, fun hf => by rw [hf] at h2; cases h2⟩
    | nextEnterLater h1 h2 h3 =>
      exact ⟨(fun hf => by rw [hf] at h2; cases h2), fun _ => rfl⟩
    | nextReturn h1 h2 => rw [henter] at h1; cases h1
  · intro hwait hret
    cases hstep with
    | produceBegin h1 h2 => rw [hwait] at hret; cases hret
    | produceEnd h => exact absurd hret (by dsimp only; rw [hwait]; simp)
    | nextEnterFirst h1 h2 => rw [h1] at hwait; cases hwait
    | nextEnterLater h1 h2 h3 => rw [h1] at hwait; cases hwait
    | nextReturn h1 h2 =>
      exact ⟨h2, rfl, rfl, hslots s.rpos h2⟩

/-- C5 witness: the first `next()` call from the initial state releases
nothing. -/
theorem claim_c5_witness :
    (pinit.first = true → pinit.rpos = 0) ∧
    (pinit.inNext = false → pC5a.inNext = true →
      (pinit.first = true → pC5a.rpos = pinit.rpos) ∧
      (pinit.first = false → pC5a.rpos = pinit.rpos + 1)) ∧
    (pinit.inNext = true → pC5a.inNext = false →
      pinit.rpos < pinit.wpos ∧ pC5a.holding = true ∧ pC5a.rpos = pinit.rpos ∧
        pC5a.copiedSlots.getD pC5a.rpos 2 = pC5a.rpos % 2) :=
  claim_c5_release_then_wait pinit pC5a Relation.ReflTransGen.refl
    (PStep.nextEnterFirst pinit rfl rfl)

/-- C6.  Barrier round-trip invariant: in every reachable state of the
manager/worker barrier, start signals never stack (each is 0 or 1, so a
worker never observes two consecutive start signals without an intervening
manager reset), the completion counter never exceeds `N`, whenever the
manager is between rounds (about to start a new minibatch) the completion
counter has been reset to 0, every start signal has been consumed, no worker
is still decoding, and every worker has consumed exactly one start unit per
completed round; during a round, each worker's consumed count is exactly
`rounds + 1` minus its pending start signal. -/
theorem claim_c6_barrier_roundtrip (N : Nat) (s : BState N) (hs : BReach N s) :
    (∀ i, s.startSig i ≤ 1) ∧
    s.ended ≤ N ∧
    (s.mrun = false →
      s.ended = 0 ∧ ∀ i, s.startSig i = 0 ∧ s.working i = 0 ∧ s.consumed i = s.rounds) ∧
    (s.mrun = true → ∀ i, s.consumed i + s.startSig i = s.rounds + 1) := by
  obtain ⟨h1, h2, h3, h4⟩ := breach_inv N s hs
  refine ⟨h1, ?_, h3, fun hm => (h4 hm).2⟩
  cases hmr : s.mrun with
  | false => have := (h3 hmr).1; omega
  | true => have := (h4 hmr).1; omega

/-- C6 witness: the state of a 2-worker pool right after the manager
broadcasts the start signals of the first round. -/
theorem claim_c6_witness :
    (∀ i, ({ binit 2 with mrun := true, startSig := fun _ => 1 } : BState 2).startSig i ≤ 1) ∧
    ({ binit 2 with mrun := true, startSig := fun _ => 1 } : BState 2).ended ≤ 2 ∧
    (({ binit 2 with mrun := true, startSig := fun _ => 1 } : BState 2).mrun = false →
      ({ binit 2 with mrun := true, startSig := fun _ => 1 } : BState 2).ended = 0 ∧
      ∀ i, ({ binit 2 with mrun := true, startSig := fun _ => 1 } : BState 2).startSig i = 0 ∧
        ({ binit 2 with mrun := true, startSig := fun _ => 1 } : BState 2).working i = 0 ∧
        ({ binit 2 with mrun := true, startSig := fun _ => 1 } : BState 2).consumed i =
          ({ binit 2 with mrun := true, startSig := fun _ => 1 } : BState 2).rounds) ∧
    (({ binit 2 with mrun := true, startSig := fun _ => 1 } : BState 2).mrun = true →
      ∀ i, ({ binit 2 with mrun := true, startSig := fun _ => 1 } : BState 2).consumed i +
        ({ binit 2 with mrun := true, startSig := fun _ => 1 } : BState 2).startSig i =
        ({ binit 2 with mrun := true, startSig := fun _ => 1 } : BState 2).rounds + 1) :=
  claim_c6_barrier_roundtrip 2 { binit 2 with mrun := true, startSig := fun _ => 1 }
    (Relation.ReflTransGen.single (BStep.mStart (binit 2) rfl))

/-- C7.  Double-buffer alternation and isolation: in every reachable state
`_bufferIndex` is 0 or 1 and equals `wpos mod 2` (the index of the next
minibatch to produce), so minibatch `k` is copied to device slot `k mod 2`
and the index flips exactly when a minibatch is published; and whenever the
trainer holds a minibatch while the manager is copying one, the slot being
written (`bufferIndex`) differs from the slot being read (`rpos mod 2`). -/
theorem claim_c7_double_buffer (s : PState) (hs : PReach s) :
    (s.bufferIndex = 0 ∨ s.bufferIndex = 1) ∧
    s.bufferIndex = s.wpos % 2 ∧
    (∀ k, k < s.wpos → s.copiedSlots.getD k 2 = k % 2) ∧
    (∀ t, PStep s t → t.wpos = s.wpos + 1 → t.bufferIndex = 1 - s.bufferIndex) ∧
    (s.holding = true → s.copying = true → s.bufferIndex ≠ s.rpos % 2) := by
  obtain ⟨hbuf, hrw, hhold, hcopy, hhn, hin, hfirst, hnf, hlen, hslots⟩ := preach_inv s hs
  refine ⟨by omega, hbuf, hslots, ?_, ?_⟩
  · intro t hstep hw
    cases hstep with
    | produceBegin h1 h2 => dsimp only at hw; omega
    | produceEnd h => rfl
    | nextEnterFirst h1 h2 => dsimp only at hw; omega
    | nextEnterLater h1 h2 h3 => dsimp only at hw; omega
    | nextReturn h1 h2 => dsimp only at hw; omega
  · intro hh hc
    have h1 := hhold hh
    have h2 := hcopy hc
    omega

/-- C7 witness: the reachable state after the first minibatch has been
produced. -/
theorem claim_c7_witness :
    (pC5c.bufferIndex = 0 ∨ pC5c.bufferIndex = 1) ∧
    pC5c.bufferIndex = pC5c.wpos % 2 ∧
    (∀ k, k < pC5c.wpos → pC5c.copiedSlots.getD k 2 = k % 2) ∧
    (∀ t, PStep pC5c t → t.wpos = pC5c.wpos + 1 → t.bufferIndex = 1 - pC5c.bufferIndex) ∧
    (pC5c.holding = true → pC5c.copying = true → pC5c.bufferIndex ≠ pC5c.rpos % 2) :=
  claim_c7_double_buffer pC5c
    (Relation.ReflTransGen.tail
      (Relation.ReflTransGen.tail
        (Relation.ReflTransGen.single (PStep.nextEnterFirst pinit rfl rfl))
        (PStep.produceBegin pC5a rfl (by decide)))
      (PStep.produceEnd pC5b rfl))

/-- C8.  When `reader.read` returns `-1` on the `k`-th read (all earlier
reads succeeding), `ReadThread::produce` marks the stage done and raises the
fatal condition without advancing the read pool's write cursor for the
failed read (`wpos` stays at `k`), and the stage loop performs no further
reads: the state is unchanged in every later iteration, with exactly `k + 1`
read attempts ever made. -/
theorem claim_c8_reader_failure (read : Nat → Int) (k : Nat) (hk : read k = -1)
    (hpre : ∀ j, j < k → read j ≠ -1) :
    readRun read (k + 1) = ⟨k + 1, k, true, true⟩ ∧
    ∀ n, k < n → readRun read n = ⟨k + 1, k, true, true⟩ := by
  have hok := readRun_ok read k hpre
  have hstep : readRun read (k + 1) = ⟨k + 1, k, true, true⟩ := by
    rw [readRun]
    simp only [hok]
    rw [if_neg (by simp)]
    rw [readProduce]
    simp only []
    rw [if_pos hk]
  refine ⟨hstep, ?_⟩
  intro n hn
  induction n with
  | zero => omega
  | succ m ih =>
    by_cases hm : k < m
    · have hprev := ih hm
      rw [readRun]
      simp only [hprev]
      rfl
    · have hmk : m = k := by omega
      subst hmk
      exact hstep

/-- C8 witness: a reader that fails on its third read (`k = 2`). -/
theorem claim_c8_witness :
    readRun (fun j => if j = 2 then -1 else 0) (2 + 1) = ⟨2 + 1, 2, true, true⟩ ∧
    ∀ n, 2 < n → readRun (fun j => if j = 2 then -1 else 0) n = ⟨2 + 1, 2, true, true⟩ :=
  claim_c8_reader_failure (fun j => if j = 2 then -1 else 0) 2 (by decide)
    (fun j hj => by
      have : j = 0 ∨ j = 1 := by omega
      rcases this with h | h <;> subst h <;> decide)

/-- C9 counterexample: when the third allocation (`_decodeBufs`) fails,
`Loader::start` returns `-1` and spawns no threads, but the facade is left
with `_readBufs` and `_readThread` installed — partial state remains, so
"no partial state" is false as stated. -/
theorem claim_c9_counterexample :
    (loaderStart (fun i => decide (i.val < 2))).1 = -1 ∧
    (loaderStart (fun i => decide (i.val < 2))).2.readBufs = true ∧
    (loaderStart (fun i => decide (i.val < 2))).2.readThread = true ∧
    (loaderStart (fun i => decide (i.val < 2))).2.decodeBufs = false ∧
    (loaderStart (fun i => decide (i.val < 2))).2.threadsStarted = false := by
  decide

/-- C9 (amended): if an allocation fails during `Loader::start`, `start`
returns `-1` and no threads are spawned; however the pools and stages
allocated *before* the failing allocation remain installed in the facade
(they are only released by a later `stop()` or the destructor): each member
is installed iff every allocation up to and including its own succeeded. -/
theorem claim_c9_alloc_failure (ok : Fin 4 → Bool) :
    (loaderStart ok).1 = (if (ok 0 && ok 1 && ok 2 && ok 3) = true then (0 : Int) else -1) ∧
    (loaderStart ok).2.readBufs = ok 0 ∧
    (loaderStart ok).2.readThread = (ok 0 && ok 1) ∧
    (loaderStart ok).2.decodeBufs = (ok 0 && ok 1 && ok 2) ∧
    (loaderStart ok).2.decodeThreads = (ok 0 && ok 1 && ok 2 && ok 3) ∧
    (loaderStart ok).2.threadsStarted = (ok 0 && ok 1 && ok 2 && ok 3) := by
  rw [loaderStart_spec ok]
  cases h0 : ok 0 <;> cases h1 : ok 1 <;> cases h2 : ok 2 <;> cases h3 : ok 3 <;>
    simp

/-- C10.  `Loader::reset` always returns 0: the result of the internal
`start()` is discarded, so even when that restart fails with `-1` (e.g. on
allocation failure), `reset`'s caller sees 0. -/
theorem claim_c10_reset_returns_zero :
    (∀ ok : Fin 4 → Bool, (loaderReset ok).1 = 0) ∧
    (loaderStart (fun i => decide (i.val = 0))).1 = -1 ∧
    (loaderReset (fun i => decide (i.val = 0))).1 = 0 := by
  refine ⟨fun ok => rfl, by decide, rfl⟩
